import Mathlib

/-!
Verification of the JSON-backed precinct record store
(`PrecinctStrategyEngine` in `strategy_engine.py`).

The store keeps an ordered in-memory sequence of records (Python dicts
parsed from a JSON array) and rewrites the whole backing file on every
successful mutation.  We embed:

* `Value` — a parsed JSON value (Python's `json.load` result);
* `Record` — a Python dict as an insertion-ordered association list;
* `FileContent` — the state of the backing file;
* `Engine` — the object state (`self.data`, plus the file it writes);
* one Lean function per method of the class, translated line by line;
* Python `KeyError` / `json.JSONDecodeError` as an explicit error monad.
-/

/-- A parsed JSON value, the possible shape of any field value and of the
document `json.load` returns. -/
inductive Value where
  | null
  | bool (b : Bool)
  | num (n : Int)
  | str (s : String)
  | arr (vs : List Value)
  | obj (fs : List (String × Value))

mutual

/-- Structural equality of JSON values, Python's `==` on the decoded data. -/
def Value.beq : Value → Value → Bool
  | .null, .null => true
  | .bool a, .bool b => a == b
  | .num a, .num b => a == b
  | .str a, .str b => a == b
  | .arr as, .arr bs => beqValues as bs
  | .obj fs, .obj gs => beqFields fs gs
  | _, _ => false

/-- Pointwise equality of JSON value lists. -/
def beqValues : List Value → List Value → Bool
  | [], [] => true
  | a :: as, b :: bs => Value.beq a b && beqValues as bs
  | _, _ => false

/-- Pointwise equality of key-value field lists. -/
def beqFields : List (String × Value) → List (String × Value) → Bool
  | [], [] => true
  | (k, v) :: fs, (k2, v2) :: gs => k == k2 && Value.beq v v2 && beqFields fs gs
  | _, _ => false

end

mutual

/-- The boolean equality on `Value` decides propositional equality. -/
theorem Value.beq_iff : ∀ a b : Value, Value.beq a b = true ↔ a = b
  | .null, .null => by simp [Value.beq]
  | .bool a, .bool b => by simp [Value.beq]
  | .num a, .num b => by simp [Value.beq]
  | .str a, .str b => by simp [Value.beq]
  | .arr as, .arr bs => by
      simp only [Value.beq, beqValues_iff as bs, Value.arr.injEq]
  | .obj fs, .obj gs => by
      simp only [Value.beq, beqFields_iff fs gs, Value.obj.injEq]
  | .null, .bool _ => by simp [Value.beq]
  | .null, .num _ => by simp [Value.beq]
  | .null, .str _ => by simp [Value.beq]
  | .null, .arr _ => by simp [Value.beq]
  | .null, .obj _ => by simp [Value.beq]
  | .bool _, .null => by simp [Value.beq]
  | .bool _, .num _ => by simp [Value.beq]
  | .bool _, .str _ => by simp [Value.beq]
  | .bool _, .arr _ => by simp [Value.beq]
  | .bool _, .obj _ => by simp [Value.beq]
  | .num _, .null => by simp [Value.beq]
  | .num _, .bool _ => by simp [Value.beq]
  | .num _, .str _ => by simp [Value.beq]
  | .num _, .arr _ => by simp [Value.beq]
  | .num _, .obj _ => by simp [Value.beq]
  | .str _, .null => by simp [Value.beq]
  | .str _, .bool _ => by simp [Value.beq]
  | .str _, .num _ => by simp [Value.beq]
  | .str _, .arr _ => by simp [Value.beq]
  | .str _, .obj _ => by simp [Value.beq]
  | .arr _, .null => by simp [Value.beq]
  | .arr _, .bool _ => by simp [Value.beq]
  | .arr _, .num _ => by simp [Value.beq]
  | .arr _, .str _ => by simp [Value.beq]
  | .arr _, .obj _ => by simp [Value.beq]
  | .obj _, .null => by simp [Value.beq]
  | .obj _, .bool _ => by simp [Value.beq]
  | .obj _, .num _ => by simp [Value.beq]
  | .obj _, .str _ => by simp [Value.beq]
  | .obj _, .arr _ => by simp [Value.beq]

/-- List version of `Value.beq_iff`. -/
theorem beqValues_iff : ∀ as bs : List Value, beqValues as bs = true ↔ as = bs
  | [], [] => by simp [beqValues]
  | a :: as, b :: bs => by
      simp only [beqValues, Bool.and_eq_true, Value.beq_iff a b, beqValues_iff as bs,
        List.cons.injEq]
  | [], _ :: _ => by simp [beqValues]
  | _ :: _, [] => by simp [beqValues]

/-- Field-list version of `Value.beq_iff`. -/
theorem beqFields_iff : ∀ fs gs : List (String × Value), beqFields fs gs = true ↔ fs = gs
  | [], [] => by simp [beqFields]
  | (k, v) :: fs, (k2, v2) :: gs => by
      simp only [beqFields, Bool.and_eq_true, Value.beq_iff v v2, beqFields_iff fs gs,
        List.cons.injEq, beq_iff_eq, Prod.mk.injEq]
  | [], _ :: _ => by simp [beqFields]
  | _ :: _, [] => by simp [beqFields]

end

instance : DecidableEq Value := fun a b =>
  decidable_of_iff (Value.beq a b = true) (Value.beq_iff a b)

deriving instance DecidableEq for Except

/-- A Python dict (one precinct record): an insertion-ordered association
list from field name to JSON value, as produced by parsing a JSON object. -/
abbrev Record := List (String × Value)

/-- Python dict read `d.get(k)`: the value at the first occurrence of key
`k`, if any. -/
def getField (r : Record) (k : String) : Option Value :=
  (r.find? fun p => p.1 == k).map Prod.snd

/-- Python dict write `d[k] = v`: replace the value at key `k` in place if
the key is present, otherwise append the new key at the end (dicts preserve
insertion order). -/
def setField : Record → String → Value → Record
  | [], k, v => [(k, v)]
  | p :: rest, k, v => if p.1 == k then (k, v) :: rest else p :: setField rest k v

/-- Python `d.update(us)`: set every key of `us`, in order. -/
def dictUpdate (r us : Record) : Record :=
  us.foldl (fun acc p => setField acc p.1 p.2) r

/-- The value of the `precinct_id` field of a record, if present. -/
def pidOf (r : Record) : Option Value :=
  getField r "precinct_id"

/-- The Python exceptions the engine's code can raise. -/
inductive PyError where
  | keyError (k : String)
  | jsonDecodeError
deriving DecidableEq

/-- The state of the backing file at `self.filepath`: missing, present but
not valid JSON, or present with a parsed JSON document `v`. -/
inductive FileContent where
  | absent
  | invalid
  | json (v : Value)
deriving DecidableEq

/-- Serialization of the in-memory sequence as the JSON document
`json.dump` writes: an array of objects. -/
def encodeData (data : List Record) : Value :=
  .arr (data.map Value.obj)

/-- Reads a list of JSON objects back as records; fails on any element
that is not an object. -/
def decodeRecords : List Value → Option (List Record)
  | [] => some []
  | .obj fs :: rest => (decodeRecords rest).map (fun tail => fs :: tail)
  | _ :: _ => none

/-- Reads a JSON document back as the record sequence it encodes, if it is
an array of objects. -/
def decodeData : Value → Option (List Record)
  | .arr vs => decodeRecords vs
  | _ => none

/-- Embeds `_load` (strategy_engine.py lines 10-15): `open` + `json.load`,
with only `FileNotFoundError` caught (giving `self.data = []`, the empty
JSON array).  A present but unparsable file raises `json.JSONDecodeError`,
which propagates out of the constructor. -/
def _load : FileContent → Except PyError Value
  | .absent => .ok (.arr [])
  | .invalid => .error .jsonDecodeError
  | .json v => .ok v

/-- The state of one `PrecinctStrategyEngine` object: `self.data` together
with the backing file the object reads and rewrites. -/
structure Engine where
  data : List Record
  file : FileContent
deriving DecidableEq

/-- Embeds `_save` (lines 17-19): rewrite the whole backing file with the
JSON serialization of `self.data`. -/
def _save (e : Engine) : Engine :=
  { e with file := .json (encodeData e.data) }

/-- Embeds `get_all_precincts` (lines 21-22): `return self.data` — the
internal sequence itself. -/
def get_all_precincts (e : Engine) : List Record :=
  e.data

/-- Embeds `get_precinct` (lines 24-25):
`next((p for p in self.data if p['precinct_id'] == precinct_id), None)`.
The generator is lazy: records are subscripted one at a time until the
first match, so a record lacking the key raises `KeyError` only if it is
reached before a match is found. -/
def get_precinct : List Record → Value → Except PyError (Option Record)
  | [], _ => .ok none
  | r :: rest, pid =>
    match getField r "precinct_id" with
    | none => .error (.keyError "precinct_id")
    | some v => if v = pid then .ok (some r) else get_precinct rest pid

/-- In-place mutation of the dict object `get_precinct` returned: that
object is the first element of `self.data` whose `precinct_id` equals
`pid`, so the list with the mutated object is the list with its first such
element replaced. -/
def replaceFirst : List Record → Value → Record → List Record
  | [], _, _ => []
  | r :: rest, pid, r2 =>
    if getField r "precinct_id" = some pid then r2 :: rest
    else r :: replaceFirst rest pid r2

/-- Embeds `update_precinct` (lines 27-34): look the record up; if found
(and truthy — a dict returned by `get_precinct` holds at least the
`precinct_id` key, so it is never the falsy empty dict), `dict.update` the
partial into it, overwrite `last_updated`, save, return `True`; otherwise
return `False`. -/
def update_precinct (e : Engine) (pid : Value) (updates : Record) (now : String) :
    Except PyError (Engine × Bool) :=
  match get_precinct e.data pid with
  | .error err => .error err
  | .ok none => .ok (e, false)
  | .ok (some r) =>
    if r.isEmpty then .ok (e, false)
    else
      let r2 := setField (dictUpdate r updates) "last_updated" (.str now)
      .ok (_save { e with data := replaceFirst e.data pid r2 }, true)

/-- Embeds `add_precinct` (lines 36-42): subscript the entry's
`precinct_id` (a `KeyError` if absent), and if no stored record has that
id, stamp `last_updated`, append, save, return `True`; else return
`False`. -/
def add_precinct (e : Engine) (entry : Record) (now : String) :
    Except PyError (Engine × Bool) :=
  match getField entry "precinct_id" with
  | none => .error (.keyError "precinct_id")
  | some pid =>
    match get_precinct e.data pid with
    | .error err => .error err
    | .ok (some _) => .ok (e, false)
    | .ok none =>
      .ok (_save { e with data := e.data ++ [setField entry "last_updated" (.str now)] }, true)

/-- Embeds the list comprehension of `delete_precinct` (line 46):
`[p for p in self.data if p['precinct_id'] != precinct_id]`.  Every record
is subscripted, so any record lacking the key raises `KeyError`. -/
def filterNe : List Record → Value → Except PyError (List Record)
  | [], _ => .ok []
  | r :: rest, pid =>
    match getField r "precinct_id" with
    | none => .error (.keyError "precinct_id")
    | some v =>
      match filterNe rest pid with
      | .error err => .error err
      | .ok kept => .ok (if v = pid then kept else r :: kept)

/-- Embeds `delete_precinct` (lines 44-50): rebuild `self.data` without
the matching records; if the length shrank, save and return `True`, else
return `False` (the data was reassigned to an equal list and the file was
not touched). -/
def delete_precinct (e : Engine) (pid : Value) : Except PyError (Engine × Bool) :=
  match filterNe e.data pid with
  | .error err => .error err
  | .ok kept =>
    if kept.length < e.data.length then .ok (_save { e with data := kept }, true)
    else .ok ({ e with data := kept }, false)

/-- One mutating call on the engine, with the timestamp `datetime.now()`
would produce passed in explicitly. -/
inductive Op where
  | add (entry : Record) (now : String)
  | update (pid : Value) (updates : Record) (now : String)
  | del (pid : Value)

/-- Runs one mutating call. -/
def applyOp (e : Engine) : Op → Except PyError (Engine × Bool)
  | .add entry now => add_precinct e entry now
  | .update pid us now => update_precinct e pid us now
  | .del pid => delete_precinct e pid

/-- Runs a sequence of mutating calls, stopping at the first raised
exception. -/
def runOps (e : Engine) : List Op → Except PyError Engine
  | [] => .ok e
  | op :: rest =>
    match applyOp e op with
    | .error err => .error err
    | .ok (e2, _) => runOps e2 rest

/-- Runs a sequence of `add_precinct` calls, collecting the returned
booleans. -/
def runAdds : Engine → List (Record × String) → Except PyError (Engine × List Bool)
  | e, [] => .ok (e, [])
  | e, p :: rest =>
    match add_precinct e p.1 p.2 with
    | .error err => .error err
    | .ok (e1, b) =>
      match runAdds e1 rest with
      | .error err => .error err
      | .ok (e2, bs) => .ok (e2, b :: bs)

/-- The record an `add` call appends: the entry with `last_updated`
stamped. -/
def stamp (p : Record × String) : Record :=
  setField p.1 "last_updated" (.str p.2)

/-- Every stored record carries the `precinct_id` field (the spec's
required-field condition on records). -/
def WF (data : List Record) : Prop :=
  ∀ r ∈ data, (pidOf r).isSome

/-- The spec's uniqueness invariant: no two stored records share a
`precinct_id` value. -/
def UniqueIds (data : List Record) : Prop :=
  (data.map pidOf).Nodup

instance (data : List Record) : Decidable (WF data) := by
  unfold WF
  infer_instance

instance (data : List Record) : Decidable (UniqueIds data) := by
  unfold UniqueIds
  infer_instance

theorem getField_cons (p : String × Value) (rest : Record) (k : String) :
    getField (p :: rest) k = if p.1 == k then some p.2 else getField rest k := by
  simp only [getField, List.find?]
  cases h : p.1 == k <;> simp [h]

theorem getField_setField_self (r : Record) (k : String) (v : Value) :
    getField (setField r k v) k = some v := by
  induction r with
  | nil => simp [setField, getField_cons]
  | cons p rest ih =>
    by_cases h : p.1 == k
    · simp [setField, h, getField_cons]
    · simp [setField, h, getField_cons, ih]

theorem getField_setField_ne (r : Record) (k k2 : String) (v : Value) (h : k2 ≠ k) :
    getField (setField r k v) k2 = getField r k2 := by
  have h2 : ¬(k = k2) := fun hh => h hh.symm
  induction r with
  | nil => simp [setField, getField_cons, h2]
  | cons p rest ih =>
    by_cases hp : p.1 == k
    · have hp2 : p.1 = k := by simpa using hp
      simp [setField, hp, getField_cons, h2, hp2]
    · simp [setField, hp, getField_cons, ih]

theorem getField_isSome_ne_nil (r : Record) (k : String) (v : Value)
    (h : getField r k = some v) : r ≠ [] := by
  intro hnil
  subst hnil
  simp [getField] at h

theorem dictUpdate_cons (r : Record) (p : String × Value) (us : Record) :
    dictUpdate r (p :: us) = dictUpdate (setField r p.1 p.2) us := rfl

theorem getField_dictUpdate_not_mem (us : Record) (r : Record) (k : String)
    (h : k ∉ us.map Prod.fst) :
    getField (dictUpdate r us) k = getField r k := by
  induction us generalizing r with
  | nil => rfl
  | cons p us ih =>
    simp only [List.map_cons, List.mem_cons, not_or] at h
    rw [dictUpdate_cons, ih _ h.2, getField_setField_ne _ _ _ _ h.1]

theorem getField_dictUpdate_mem (us : Record) (r : Record) (k : String)
    (hnd : (us.map Prod.fst).Nodup) (h : k ∈ us.map Prod.fst) :
    getField (dictUpdate r us) k = getField us k := by
  induction us generalizing r with
  | nil => simp at h
  | cons p us ih =>
    rw [List.map_cons] at hnd h
    obtain ⟨hnot, hndtail⟩ := List.nodup_cons.mp hnd
    rw [dictUpdate_cons]
    by_cases hk : k = p.1
    · subst hk
      rw [getField_dictUpdate_not_mem _ _ _ hnot, getField_setField_self]
      simp [getField_cons]
    · have hmem : k ∈ us.map Prod.fst := by
        rcases List.mem_cons.mp h with h1 | h1
        · exact absurd h1 hk
        · exact h1
      rw [ih _ hndtail hmem]
      have hne : ¬(p.1 == k) := by simpa using fun hh => hk hh.symm
      simp [getField_cons, hne]

theorem get_precinct_eq_find (data : List Record) (pid : Value) (h : WF data) :
    get_precinct data pid = .ok (data.find? fun r => decide (pidOf r = some pid)) := by
  induction data with
  | nil => rfl
  | cons r rest ih =>
    obtain ⟨v, hv⟩ := Option.isSome_iff_exists.mp (h r (by simp))
    have hv2 : getField r "precinct_id" = some v := hv
    by_cases hvp : v = pid
    · subst hvp
      simp [get_precinct, hv2, pidOf, List.find?_cons_of_pos]
    · have hr : ¬ pidOf r = some pid := by simp [pidOf, hv2, hvp]
      have hrest : WF rest := fun q hq => h q (by simp [hq])
      simp [get_precinct, hv2, hvp, List.find?_cons_of_neg, hr, ih hrest, pidOf]

theorem get_precinct_ok_none_iff (data : List Record) (pid : Value) (h : WF data) :
    get_precinct data pid = .ok none ↔ ∀ r ∈ data, pidOf r ≠ some pid := by
  rw [get_precinct_eq_find data pid h]
  simp [List.find?_eq_none]

theorem get_precinct_pre (pre post : List Record) (r : Record) (pid : Value)
    (hpre : ∀ q ∈ pre, ∃ v, pidOf q = some v ∧ v ≠ pid)
    (hr : pidOf r = some pid) :
    get_precinct (pre ++ r :: post) pid = .ok (some r) := by
  have hr2 : getField r "precinct_id" = some pid := hr
  induction pre with
  | nil => simp [get_precinct, hr2]
  | cons q pre ih =>
    obtain ⟨v, hv, hne⟩ := hpre q (by simp)
    have hv2 : getField q "precinct_id" = some v := hv
    have := ih (fun q2 hq2 => hpre q2 (by simp [hq2]))
    simpa [get_precinct, hv2, hne] using this

theorem replaceFirst_pre (pre post : List Record) (r r2 : Record) (pid : Value)
    (hpre : ∀ q ∈ pre, ∃ v, pidOf q = some v ∧ v ≠ pid)
    (hr : pidOf r = some pid) :
    replaceFirst (pre ++ r :: post) pid r2 = pre ++ r2 :: post := by
  have hr2 : getField r "precinct_id" = some pid := hr
  induction pre with
  | nil => simp [replaceFirst, hr2]
  | cons q pre ih =>
    obtain ⟨v, hv, hne⟩ := hpre q (by simp)
    have hv2 : getField q "precinct_id" = some v := hv
    have hq : ¬ getField q "precinct_id" = some pid := by simp [hv2, hne]
    simp [replaceFirst, hq, ih (fun q2 hq2 => hpre q2 (by simp [hq2]))]

theorem map_pidOf_replaceFirst (data : List Record) (pid : Value) (r2 : Record)
    (h : pidOf r2 = some pid) :
    (replaceFirst data pid r2).map pidOf = data.map pidOf := by
  induction data with
  | nil => rfl
  | cons r rest ih =>
    by_cases hr : getField r "precinct_id" = some pid
    · have : pidOf r = some pid := hr
      simp [replaceFirst, hr, h, this]
    · simp [replaceFirst, hr, ih]

theorem filterNe_eq_filter (data : List Record) (pid : Value) (h : WF data) :
    filterNe data pid = .ok (data.filter fun r => !decide (pidOf r = some pid)) := by
  induction data with
  | nil => rfl
  | cons r rest ih =>
    obtain ⟨v, hv⟩ := Option.isSome_iff_exists.mp (h r (by simp))
    have hv2 : getField r "precinct_id" = some v := hv
    have hrest : WF rest := fun q hq => h q (by simp [hq])
    by_cases hvp : v = pid
    · simp [filterNe, hv2, hvp, ih hrest, List.filter_cons, pidOf]
    · simp [filterNe, hv2, hvp, ih hrest, List.filter_cons, pidOf]

theorem filterNe_error (data : List Record) (pid : Value)
    (h : ∃ r ∈ data, pidOf r = none) :
    filterNe data pid = .error (.keyError "precinct_id") := by
  induction data with
  | nil => simp at h
  | cons r rest ih =>
    rcases h with ⟨q, hq, hqn⟩
    rcases List.mem_cons.mp hq with rfl | hq2
    · have : getField q "precinct_id" = none := hqn
      simp [filterNe, this]
    · cases hv : getField r "precinct_id" with
      | none => simp [filterNe, hv]
      | some v => simp [filterNe, hv, ih ⟨q, hq2, hqn⟩]

theorem decodeRecords_map_obj (data : List Record) :
    decodeRecords (data.map Value.obj) = some data := by
  induction data with
  | nil => rfl
  | cons r rest ih => simp [decodeRecords, ih]

theorem decodeData_encodeData (data : List Record) :
    decodeData (encodeData data) = some data := by
  simp [decodeData, encodeData, decodeRecords_map_obj]

theorem pidOf_stamp (p : Record × String) : pidOf (stamp p) = pidOf p.1 := by
  simp only [stamp, pidOf]
  exact getField_setField_ne _ _ _ _ (by decide)

theorem pidOf_set_last (r : Record) (v : Value) :
    pidOf (setField r "last_updated" v) = pidOf r :=
  getField_setField_ne _ _ _ _ (by decide)

theorem get_precinct_ok_some_pid (data : List Record) (pid : Value) (r : Record)
    (h : get_precinct data pid = .ok (some r)) : pidOf r = some pid := by
  induction data with
  | nil => simp [get_precinct] at h
  | cons q rest ih =>
    cases hq : getField q "precinct_id" with
    | none => simp [get_precinct, hq] at h
    | some v =>
      by_cases hv : v = pid
      · simp [get_precinct, hq, hv] at h
        subst h
        rw [pidOf, hq, hv]
      · simp [get_precinct, hq, hv] at h
        exact ih h

theorem WF_of_map_pidOf_eq (data data2 : List Record)
    (hmap : data2.map pidOf = data.map pidOf) (h : WF data) : WF data2 := by
  intro r hr
  have hmem : pidOf r ∈ data2.map pidOf := List.mem_map_of_mem _ hr
  rw [hmap] at hmem
  obtain ⟨q, hq, hpe⟩ := List.mem_map.mp hmem
  rw [← hpe]
  exact h q hq

theorem not_mem_map_pidOf (data : List Record) (pid : Value)
    (hall : ∀ r ∈ data, pidOf r ≠ some pid) : some pid ∉ data.map pidOf := by
  intro hmem
  obtain ⟨q, hq, hpe⟩ := List.mem_map.mp hmem
  exact hall q hq hpe

theorem add_precinct_preserves (e e2 : Engine) (entry : Record) (now : String) (b : Bool)
    (hadd : add_precinct e entry now = .ok (e2, b))
    (hwf : WF e.data) (huniq : UniqueIds e.data) :
    WF e2.data ∧ UniqueIds e2.data := by
  cases hge : getField entry "precinct_id" with
  | none => simp [add_precinct, hge] at hadd
  | some pid =>
    cases hgp : get_precinct e.data pid with
    | error err => simp [add_precinct, hge, hgp] at hadd
    | ok res =>
      cases res with
      | some r =>
        simp [add_precinct, hge, hgp] at hadd
        rw [← hadd.1]
        exact ⟨hwf, huniq⟩
      | none =>
        simp [add_precinct, hge, hgp, _save] at hadd
        rw [← hadd.1]
        have hall : ∀ r ∈ e.data, pidOf r ≠ some pid :=
          (get_precinct_ok_none_iff e.data pid hwf).mp hgp
        constructor
        · intro r hr
          rcases List.mem_append.mp hr with h1 | h1
          · exact hwf r h1
          · rw [List.mem_singleton.mp h1, pidOf_set_last, pidOf, hge]
            rfl
        · show ((e.data ++ [setField entry "last_updated" (.str now)]).map pidOf).Nodup
          rw [List.map_append, List.map_singleton, pidOf_set_last]
          rw [List.nodup_append]
          refine ⟨huniq, List.nodup_singleton _, ?_⟩
          intro x hx hx2
          rw [List.mem_singleton.mp hx2] at hx
          rw [pidOf, hge] at hx
          exact not_mem_map_pidOf e.data pid hall hx

theorem update_precinct_preserves (e e2 : Engine) (pid : Value) (us : Record)
    (now : String) (b : Bool)
    (hup : update_precinct e pid us now = .ok (e2, b))
    (hkeys : "precinct_id" ∉ us.map Prod.fst)
    (hwf : WF e.data) (huniq : UniqueIds e.data) :
    WF e2.data ∧ UniqueIds e2.data := by
  cases hgp : get_precinct e.data pid with
  | error err => simp [update_precinct, hgp] at hup
  | ok res =>
    cases res with
    | none =>
      simp [update_precinct, hgp] at hup
      rw [← hup.1]
      exact ⟨hwf, huniq⟩
    | some r =>
      by_cases hemp : r.isEmpty
      · simp [update_precinct, hgp, hemp] at hup
        rw [← hup.1]
        exact ⟨hwf, huniq⟩
      · simp [update_precinct, hgp, hemp, _save] at hup
        rw [← hup.1]
        have hrpid : pidOf r = some pid := get_precinct_ok_some_pid e.data pid r hgp
        have hr2pid :
            pidOf (setField (dictUpdate r us) "last_updated" (.str now)) = some pid := by
          rw [pidOf_set_last]
          show getField (dictUpdate r us) "precinct_id" = some pid
          rw [getField_dictUpdate_not_mem us r _ hkeys]
          exact hrpid
        have hmap := map_pidOf_replaceFirst e.data pid
          (setField (dictUpdate r us) "last_updated" (.str now)) hr2pid
        constructor
        · exact WF_of_map_pidOf_eq e.data _ hmap hwf
        · show ((replaceFirst e.data pid _).map pidOf).Nodup
          rw [hmap]
          exact huniq

theorem delete_precinct_preserves (e e2 : Engine) (pid : Value) (b : Bool)
    (hdel : delete_precinct e pid = .ok (e2, b))
    (hwf : WF e.data) (huniq : UniqueIds e.data) :
    WF e2.data ∧ UniqueIds e2.data := by
  have hfilt := filterNe_eq_filter e.data pid hwf
  have hsub : List.Sublist (e.data.filter fun r => !decide (pidOf r = some pid)) e.data :=
    List.filter_sublist e.data
  have hwf2 : WF (e.data.filter fun r => !decide (pidOf r = some pid)) :=
    fun r hr => hwf r (hsub.subset hr)
  have huniq2 : UniqueIds (e.data.filter fun r => !decide (pidOf r = some pid)) :=
    List.Nodup.sublist (hsub.map pidOf) huniq
  by_cases hlen :
      (e.data.filter fun r => !decide (pidOf r = some pid)).length < e.data.length
  · have hcomp : delete_precinct e pid =
        .ok (_save { e with data := e.data.filter fun r => !decide (pidOf r = some pid) },
             true) := by
      rw [delete_precinct, hfilt]
      simp [hlen]
    rw [hcomp] at hdel
    simp [_save] at hdel
    rw [← hdel.1]
    exact ⟨hwf2, huniq2⟩
  · have hcomp : delete_precinct e pid =
        .ok ({ e with data := e.data.filter fun r => !decide (pidOf r = some pid) },
             false) := by
      rw [delete_precinct, hfilt]
      simp [hlen]
    rw [hcomp] at hdel
    simp at hdel
    rw [← hdel.1]
    exact ⟨hwf2, huniq2⟩

/-- Restriction on an operation sequence: no `update` call carries the
`precinct_id` key in its partial mapping (so no update can rebind a
record's id). -/
def noPidOverride : Op → Prop
  | .update _ us _ => "precinct_id" ∉ us.map Prod.fst
  | _ => True

instance (op : Op) : Decidable (noPidOverride op) := by
  cases op <;> unfold noPidOverride <;> infer_instance

theorem runOps_preserves (ops : List Op) (e e2 : Engine)
    (hwf : WF e.data) (huniq : UniqueIds e.data)
    (hops : ∀ op ∈ ops, noPidOverride op)
    (hrun : runOps e ops = .ok e2) :
    WF e2.data ∧ UniqueIds e2.data := by
  induction ops generalizing e with
  | nil =>
    simp [runOps] at hrun
    rw [← hrun]
    exact ⟨hwf, huniq⟩
  | cons op rest ih =>
    cases hstep : applyOp e op with
    | error err => simp [runOps, hstep] at hrun
    | ok res =>
      obtain ⟨e1, b⟩ := res
      have hrest : runOps e1 rest = .ok e2 := by
        simpa [runOps, hstep] using hrun
      have hpres : WF e1.data ∧ UniqueIds e1.data := by
        cases op with
        | add entry now =>
          exact add_precinct_preserves e e1 entry now b hstep hwf huniq
        | update pid us now =>
          exact update_precinct_preserves e e1 pid us now b hstep
            (hops (.update pid us now) (by simp)) hwf huniq
        | del pid =>
          exact delete_precinct_preserves e e1 pid b hstep hwf huniq
      exact ih e1 hpres.1 hpres.2 (fun o ho => hops o (by simp [ho])) hrest

/-- The backing file after a run of `add` calls: untouched when no call
was made, otherwise the serialization of the final sequence (every
successful `add` rewrites the file). -/
def fileAfterAdds (fc : FileContent) (finalData : List Record) :
    List (Record × String) → FileContent
  | [] => fc
  | _ :: _ => .json (encodeData finalData)

theorem runAdds_general (entries : List (Record × String)) (e : Engine)
    (hwf : WF e.data)
    (hent : ∀ p ∈ entries, (pidOf p.1).isSome)
    (hnd : (entries.map fun p => pidOf p.1).Nodup)
    (hdisj : ∀ p ∈ entries, ∀ r ∈ e.data, pidOf r ≠ pidOf p.1) :
    runAdds e entries =
      .ok (⟨e.data ++ entries.map stamp,
            fileAfterAdds e.file (e.data ++ entries.map stamp) entries⟩,
           List.replicate entries.length true) := by
  induction entries generalizing e with
  | nil =>
    simp [runAdds, fileAfterAdds]
  | cons p rest ih =>
    obtain ⟨pid, hpid⟩ := Option.isSome_iff_exists.mp (hent p (by simp))
    have hpid2 : getField p.1 "precinct_id" = some pid := hpid
    have hnone : get_precinct e.data pid = .ok none := by
      rw [get_precinct_ok_none_iff e.data pid hwf]
      intro r hrmem heq
      exact hdisj p (by simp) r hrmem (heq.trans hpid.symm)
    have hstep : add_precinct e p.1 p.2 =
        .ok (_save { e with data := e.data ++ [stamp p] }, true) := by
      simp [add_precinct, hpid2, hnone, stamp]
    have hwf1 : WF (e.data ++ [stamp p]) := by
      intro r hr
      rcases List.mem_append.mp hr with h1 | h1
      · exact hwf r h1
      · rw [List.mem_singleton.mp h1, pidOf_stamp, hpid]
        rfl
    have hnd1 : (rest.map fun q => pidOf q.1).Nodup :=
      (List.nodup_cons.mp (by simpa using hnd)).2
    have hhead : pidOf p.1 ∉ rest.map fun q => pidOf q.1 :=
      (List.nodup_cons.mp (by simpa using hnd)).1
    have hdisj1 : ∀ q ∈ rest, ∀ r ∈ e.data ++ [stamp p], pidOf r ≠ pidOf q.1 := by
      intro q hq r hr
      rcases List.mem_append.mp hr with h1 | h1
      · exact hdisj q (by simp [hq]) r h1
      · rw [List.mem_singleton.mp h1, pidOf_stamp]
        intro heq
        apply hhead
        rw [heq]
        exact List.mem_map_of_mem _ hq
    have ihe := ih (_save { e with data := e.data ++ [stamp p] }) hwf1
      (fun q hq => hent q (by simp [hq])) hnd1 hdisj1
    simp only [runAdds, hstep, ihe]
    cases rest with
    | nil => simp [fileAfterAdds, _save]
    | cons q rest2 => simp [fileAfterAdds, _save, List.replicate_succ]

/-- C8: at construction, a missing backing file yields the empty record
sequence, while a file that exists but is not valid JSON makes the
constructor raise the decode error instead of silently starting empty. -/
theorem construction_absent_empty_invalid_fatal :
    _load .absent = .ok (encodeData []) ∧
    decodeData (encodeData []) = some [] ∧
    _load .invalid = .error .jsonDecodeError :=
  ⟨rfl, rfl, rfl⟩

/-- C9: round-trip — loading the file `_save` wrote yields exactly the
serialized in-memory sequence, decoding it reproduces the sequence (same
order, same field names and values), and saving does not mutate the
data. -/
theorem save_load_roundtrip (e : Engine) :
    _load (_save e).file = .ok (encodeData e.data) ∧
    decodeData (encodeData e.data) = some e.data ∧
    (_save e).data = e.data :=
  ⟨rfl, decodeData_encodeData e.data, rfl⟩

/-- C5: on a store whose records all carry `precinct_id`, `get_precinct`
returns the first record in sequence order whose `precinct_id` equals the
requested id (also under duplicate ids), and a not-found result — never an
exception — when no record matches. -/
theorem get_first_match_spec (data : List Record) (pid : Value) (h : WF data) :
    get_precinct data pid = .ok (data.find? fun r => decide (pidOf r = some pid)) ∧
    ((∀ r ∈ data, pidOf r ≠ some pid) → get_precinct data pid = .ok none) :=
  ⟨get_precinct_eq_find data pid h,
   fun hall => (get_precinct_ok_none_iff data pid h).mpr hall⟩

/-- Witness for C5: with two records sharing id "1", lookup returns the
first; lookup of an absent id returns the not-found result. -/
theorem get_first_match_spec_witness :
    get_precinct
        [[("precinct_id", Value.str "1"), ("name", Value.str "a")],
         [("precinct_id", Value.str "1"), ("name", Value.str "b")]] (Value.str "1")
      = .ok (some [("precinct_id", Value.str "1"), ("name", Value.str "a")]) ∧
    get_precinct
        [[("precinct_id", Value.str "1"), ("name", Value.str "a")],
         [("precinct_id", Value.str "1"), ("name", Value.str "b")]] (Value.str "9")
      = .ok none := by
  have h1 := get_first_match_spec
    [[("precinct_id", Value.str "1"), ("name", Value.str "a")],
     [("precinct_id", Value.str "1"), ("name", Value.str "b")]] (Value.str "1") (by decide)
  have h2 := get_first_match_spec
    [[("precinct_id", Value.str "1"), ("name", Value.str "a")],
     [("precinct_id", Value.str "1"), ("name", Value.str "b")]] (Value.str "9") (by decide)
  exact ⟨h1.1.trans (by decide), h2.2 (by decide)⟩

/-- C3: `add_precinct` of a record whose `precinct_id` already occurs
returns `False` — no exception — and leaves the store (sequence and file)
unchanged; `update_precinct` of an id with no matching record likewise
returns `False` and leaves the store unchanged. -/
theorem add_duplicate_update_absent_noop :
    (∀ (e : Engine) (entry : Record) (now : String) (pid : Value) (r : Record),
      getField entry "precinct_id" = some pid →
      get_precinct e.data pid = .ok (some r) →
      add_precinct e entry now = .ok (e, false)) ∧
    (∀ (e : Engine) (pid : Value) (updates : Record) (now : String),
      get_precinct e.data pid = .ok none →
      update_precinct e pid updates now = .ok (e, false)) := by
  constructor
  · intro e entry now pid r h1 h2
    simp [add_precinct, h1, h2]
  · intro e pid updates now h
    simp [update_precinct, h]

/-- Witness for C3: a duplicate `add` and an absent-id `update` on a
one-record store both return `False` and change nothing. -/
theorem add_duplicate_update_absent_noop_witness :
    add_precinct ⟨[[("precinct_id", Value.str "1")]], .absent⟩
        [("precinct_id", Value.str "1"), ("name", Value.str "x")] "t9"
      = .ok (⟨[[("precinct_id", Value.str "1")]], .absent⟩, false) ∧
    update_precinct ⟨[[("precinct_id", Value.str "1")]], .absent⟩ (Value.str "2")
        [("name", Value.str "x")] "t9"
      = .ok (⟨[[("precinct_id", Value.str "1")]], .absent⟩, false) :=
  ⟨add_duplicate_update_absent_noop.1 ⟨[[("precinct_id", Value.str "1")]], .absent⟩
      [("precinct_id", Value.str "1"), ("name", Value.str "x")] "t9" (Value.str "1")
      [("precinct_id", Value.str "1")] (by decide) (by decide),
   add_duplicate_update_absent_noop.2 ⟨[[("precinct_id", Value.str "1")]], .absent⟩
      (Value.str "2") [("name", Value.str "x")] "t9" (by decide)⟩

/-- C4: on a store whose records all carry `precinct_id`,
`delete_precinct` removes all and only the records whose `precinct_id`
equals the id (duplicates included) and returns `True` when at least one
matched; with no match it returns `False` and leaves both the sequence
and the backing file untouched. -/
theorem delete_removes_all_matches_spec (e : Engine) (pid : Value) (h : WF e.data) :
    ((∃ r ∈ e.data, pidOf r = some pid) →
      delete_precinct e pid =
        .ok (⟨e.data.filter fun r => !decide (pidOf r = some pid),
              .json (encodeData (e.data.filter fun r => !decide (pidOf r = some pid)))⟩,
             true)) ∧
    ((∀ r ∈ e.data, pidOf r ≠ some pid) →
      delete_precinct e pid = .ok (e, false)) := by
  have hf := filterNe_eq_filter e.data pid h
  constructor
  · rintro ⟨r, hr, hpid⟩
    have hlt : (e.data.filter fun r => !decide (pidOf r = some pid)).length
        < e.data.length := by
      rw [List.length_filter_lt_length_iff_exists]
      exact ⟨r, hr, by simp [hpid]⟩
    rw [delete_precinct, hf]
    simp [hlt, _save]
  · intro hall
    have hfe : e.data.filter (fun r => !decide (pidOf r = some pid)) = e.data :=
      List.filter_eq_self.mpr (fun r hr => by simp [hall r hr])
    rw [delete_precinct, hf]
    simp [hfe]

/-- Witness for C4: deleting a present id removes exactly its record and
rewrites the file; deleting an absent id returns `False` and touches
nothing. -/
theorem delete_removes_all_matches_spec_witness :
    delete_precinct
        ⟨[[("precinct_id", Value.str "1")], [("precinct_id", Value.str "2")]], .absent⟩
        (Value.str "1")
      = .ok (⟨[[("precinct_id", Value.str "2")]],
              .json (encodeData [[("precinct_id", Value.str "2")]])⟩, true) ∧
    delete_precinct
        ⟨[[("precinct_id", Value.str "1")], [("precinct_id", Value.str "2")]], .absent⟩
        (Value.str "3")
      = .ok (⟨[[("precinct_id", Value.str "1")], [("precinct_id", Value.str "2")]],
              .absent⟩, false) := by
  have h1 := delete_removes_all_matches_spec
    ⟨[[("precinct_id", Value.str "1")], [("precinct_id", Value.str "2")]], .absent⟩
    (Value.str "1") (by decide)
  have h2 := delete_removes_all_matches_spec
    ⟨[[("precinct_id", Value.str "1")], [("precinct_id", Value.str "2")]], .absent⟩
    (Value.str "3") (by decide)
  exact ⟨(h1.1 (by decide)).trans (by decide), h2.2 (by decide)⟩

/-- C2: updating a present id succeeds, merges the partial shallowly into
that record — every field named in the partial is replaced wholesale by
the partial's value, fields not named keep their old value — overwrites
`last_updated` with the current time, rewrites the file, and leaves every
other record in the sequence unchanged in place. -/
theorem update_present_merge_spec (pre post : List Record) (r : Record)
    (pid : Value) (updates : Record) (now : String) (fc : FileContent)
    (hpre : ∀ q ∈ pre, ∃ v, pidOf q = some v ∧ v ≠ pid)
    (hr : pidOf r = some pid)
    (hnd : (updates.map Prod.fst).Nodup) :
    (update_precinct ⟨pre ++ r :: post, fc⟩ pid updates now =
      .ok (⟨pre ++ setField (dictUpdate r updates) "last_updated" (.str now) :: post,
            .json (encodeData
              (pre ++ setField (dictUpdate r updates) "last_updated" (.str now) :: post))⟩,
           true)) ∧
    getField (setField (dictUpdate r updates) "last_updated" (.str now)) "last_updated"
      = some (.str now) ∧
    (∀ k, k ≠ "last_updated" → k ∈ updates.map Prod.fst →
      getField (setField (dictUpdate r updates) "last_updated" (.str now)) k
        = getField updates k) ∧
    (∀ k, k ≠ "last_updated" → k ∉ updates.map Prod.fst →
      getField (setField (dictUpdate r updates) "last_updated" (.str now)) k
        = getField r k) := by
  have hget := get_precinct_pre pre post r pid hpre hr
  have hrep := replaceFirst_pre pre post r
    (setField (dictUpdate r updates) "last_updated" (.str now)) pid hpre hr
  have hne : r ≠ [] := getField_isSome_ne_nil r "precinct_id" pid hr
  refine ⟨?_, getField_setField_self _ _ _, ?_, ?_⟩
  · simp only [update_precinct, hget]
    simp [List.isEmpty_iff, hne, hrep, _save]
  · intro k hk hkmem
    rw [getField_setField_ne _ _ _ _ hk, getField_dictUpdate_mem updates r k hnd hkmem]
  · intro k hk hkmem
    rw [getField_setField_ne _ _ _ _ hk, getField_dictUpdate_not_mem updates r k hkmem]

/-- Witness for C2: a concrete update replaces the named fields wholesale
(including a nested object, not deep-merged), keeps unnamed fields,
stamps `last_updated`, and leaves the other record untouched. -/
theorem update_present_merge_spec_witness :
    update_precinct
        ⟨[[("precinct_id", Value.str "2")],
          [("precinct_id", Value.str "1"), ("name", Value.str "a"),
           ("tags", Value.obj [("x", Value.num 1)])]], .absent⟩
        (Value.str "1")
        [("name", Value.str "b"), ("tags", Value.obj [("y", Value.num 2)])] "t3"
      = .ok (⟨[[("precinct_id", Value.str "2")],
               [("precinct_id", Value.str "1"), ("name", Value.str "b"),
                ("tags", Value.obj [("y", Value.num 2)]), ("last_updated", Value.str "t3")]],
              .json (encodeData
                [[("precinct_id", Value.str "2")],
                 [("precinct_id", Value.str "1"), ("name", Value.str "b"),
                  ("tags", Value.obj [("y", Value.num 2)]), ("last_updated", Value.str "t3")]])⟩,
             true) := by
  have h := update_present_merge_spec
    [[("precinct_id", Value.str "2")]] []
    [("precinct_id", Value.str "1"), ("name", Value.str "a"),
     ("tags", Value.obj [("x", Value.num 1)])]
    (Value.str "1")
    [("name", Value.str "b"), ("tags", Value.obj [("y", Value.num 2)])] "t3" .absent
    (by decide) (by decide) (by decide)
  exact h.1.trans (by decide)

/-- C1: starting from an empty store, a sequence of `add_precinct` calls
whose records carry pairwise-distinct `precinct_id` values all return
`True`, each record is stamped with its call's `last_updated` timestamp,
and the resulting sequence is exactly the stamped records in the order
they were added. -/
theorem addAll_distinct_ids_spec (entries : List (Record × String)) (fc : FileContent)
    (hent : ∀ p ∈ entries, (pidOf p.1).isSome)
    (hnd : (entries.map fun p => pidOf p.1).Nodup) :
    runAdds ⟨[], fc⟩ entries =
      .ok (⟨entries.map stamp, fileAfterAdds fc (entries.map stamp) entries⟩,
           List.replicate entries.length true) ∧
    get_all_precincts ⟨entries.map stamp, fileAfterAdds fc (entries.map stamp) entries⟩
      = entries.map stamp ∧
    ∀ p ∈ entries, getField (stamp p) "last_updated" = some (.str p.2) := by
  refine ⟨?_, rfl, ?_⟩
  · have h := runAdds_general entries ⟨[], fc⟩ (by intro r hr; simp at hr) hent hnd
      (by intro p hp r hr; simp at hr)
    simpa using h
  · intro p hp
    exact getField_setField_self _ _ _

/-- Witness for C1: two adds with distinct ids both succeed and produce
exactly the two stamped records in order. -/
theorem addAll_distinct_ids_spec_witness :
    runAdds ⟨[], .absent⟩
        [([("precinct_id", Value.str "1")], "t1"), ([("precinct_id", Value.str "2")], "t2")]
      = .ok (⟨[[("precinct_id", Value.str "1"), ("last_updated", Value.str "t1")],
               [("precinct_id", Value.str "2"), ("last_updated", Value.str "t2")]],
              .json (encodeData
                [[("precinct_id", Value.str "1"), ("last_updated", Value.str "t1")],
                 [("precinct_id", Value.str "2"), ("last_updated", Value.str "t2")]])⟩,
             [true, true]) := by
  have h := addAll_distinct_ids_spec
    [([("precinct_id", Value.str "1")], "t1"), ([("precinct_id", Value.str "2")], "t2")]
    .absent (by decide) (by decide)
  exact h.1.trans (by decide)

/-- C6 (amended): starting from a store whose records all carry
`precinct_id` with pairwise-distinct values, any sequence of `add`,
`delete`, and `update` operations whose partial mappings never contain
the `precinct_id` key preserves uniqueness of `precinct_id` across the
store.  (Unrestricted `update` can rebind an id and break uniqueness —
see the counterexample.) -/
theorem uniqueIds_invariant_no_pid_override (e e2 : Engine) (ops : List Op)
    (hwf : WF e.data) (huniq : UniqueIds e.data)
    (hops : ∀ op ∈ ops, noPidOverride op)
    (hrun : runOps e ops = .ok e2) :
    UniqueIds e2.data :=
  (runOps_preserves ops e e2 hwf huniq hops hrun).2

/-- Witness for C6: an add, an update not naming `precinct_id`, and a
delete, run from a unique one-record store, end in a store with unique
ids. -/
theorem uniqueIds_invariant_no_pid_override_witness :
    UniqueIds [[("precinct_id", Value.str "1"), ("name", Value.str "x"),
                ("last_updated", Value.str "t2")]] :=
  uniqueIds_invariant_no_pid_override
    ⟨[[("precinct_id", Value.str "1")]], .absent⟩
    ⟨[[("precinct_id", Value.str "1"), ("name", Value.str "x"),
       ("last_updated", Value.str "t2")]],
     .json (encodeData [[("precinct_id", Value.str "1"), ("name", Value.str "x"),
       ("last_updated", Value.str "t2")]])⟩
    [.add [("precinct_id", Value.str "2")] "t1",
     .update (Value.str "1") [("name", Value.str "x")] "t2",
     .del (Value.str "2")]
    (by decide) (by decide) (by decide) (by decide)

/-- Counterexample for C6 as stated: from a store with distinct ids "1"
and "2", the single call `update_precinct "1" (precinct_id := "2")`
succeeds and leaves two records sharing `precinct_id` "2" — `update` can
produce a duplicate id, so uniqueness does not hold for arbitrary
operation sequences. -/
theorem uniqueIds_broken_by_pid_update :
    WF [[("precinct_id", Value.str "1")], [("precinct_id", Value.str "2")]] ∧
    UniqueIds [[("precinct_id", Value.str "1")], [("precinct_id", Value.str "2")]] ∧
    runOps ⟨[[("precinct_id", Value.str "1")], [("precinct_id", Value.str "2")]], .absent⟩
        [.update (Value.str "1") [("precinct_id", Value.str "2")] "t1"]
      = .ok ⟨[[("precinct_id", Value.str "2"), ("last_updated", Value.str "t1")],
              [("precinct_id", Value.str "2")]],
             .json (encodeData
               [[("precinct_id", Value.str "2"), ("last_updated", Value.str "t1")],
                [("precinct_id", Value.str "2")]])⟩ ∧
    ¬ UniqueIds [[("precinct_id", Value.str "2"), ("last_updated", Value.str "t1")],
                 [("precinct_id", Value.str "2")]] := by
  decide

theorem get_precinct_error_of_missing_before_match (pre rest : List Record)
    (bad : Record) (pid : Value)
    (hpre : ∀ q ∈ pre, pidOf q ≠ some pid) (hbad : pidOf bad = none) :
    get_precinct (pre ++ bad :: rest) pid = .error (.keyError "precinct_id") := by
  induction pre with
  | nil =>
    have hb : getField bad "precinct_id" = none := hbad
    simp [get_precinct, hb]
  | cons q pre ih =>
    cases hq : getField q "precinct_id" with
    | none => simp [get_precinct, hq]
    | some v =>
      have hv : v ≠ pid := by
        intro hh
        exact hpre q (by simp) (by rw [pidOf, hq, hh])
      simp only [List.cons_append, get_precinct, hq, hv, if_neg]
      exact ih (fun q2 hq2 => hpre q2 (by simp [hq2]))

/-- C10 (amended): the operations are total only when records carry the
`precinct_id` field — `add_precinct` of an entry lacking it raises
`KeyError`; `delete_precinct` raises `KeyError` whenever any stored
record lacks it; `get_precinct` raises `KeyError` exactly when a record
lacking it is scanned before the first match — in particular whenever no
record matches — but returns the first match without raising when the
match precedes every such record. -/
theorem missing_pid_key_error_spec :
    (∀ (e : Engine) (entry : Record) (now : String),
      getField entry "precinct_id" = none →
      add_precinct e entry now = .error (.keyError "precinct_id")) ∧
    (∀ (e : Engine) (pid : Value), (∃ r ∈ e.data, pidOf r = none) →
      delete_precinct e pid = .error (.keyError "precinct_id")) ∧
    (∀ (pre rest : List Record) (bad : Record) (pid : Value),
      (∀ q ∈ pre, pidOf q ≠ some pid) → pidOf bad = none →
      get_precinct (pre ++ bad :: rest) pid = .error (.keyError "precinct_id")) := by
  refine ⟨?_, ?_, get_precinct_error_of_missing_before_match⟩
  · intro e entry now h
    simp [add_precinct, h]
  · intro e pid h
    simp [delete_precinct, filterNe_error e.data pid h]

/-- Witness for C10: an add of a record without `precinct_id`, a delete
over a store containing such a record, and a get that scans one before
finding a match all raise `KeyError`. -/
theorem missing_pid_key_error_spec_witness :
    add_precinct ⟨[], .absent⟩ [("name", Value.str "x")] "t1"
      = .error (.keyError "precinct_id") ∧
    delete_precinct ⟨[[("name", Value.str "x")]], .absent⟩ (Value.str "1")
      = .error (.keyError "precinct_id") ∧
    get_precinct ([] ++ [("name", Value.str "x")] :: [[("precinct_id", Value.str "1")]])
        (Value.str "1")
      = .error (.keyError "precinct_id") :=
  ⟨missing_pid_key_error_spec.1 ⟨[], .absent⟩ [("name", Value.str "x")] "t1" (by decide),
   missing_pid_key_error_spec.2.1 ⟨[[("name", Value.str "x")]], .absent⟩ (Value.str "1")
     (by decide),
   missing_pid_key_error_spec.2.2 [] [[("precinct_id", Value.str "1")]]
     [("name", Value.str "x")] (Value.str "1") (by decide) (by decide)⟩

/-- Counterexample for C10 as stated: the stored sequence contains a
record lacking `precinct_id`, yet `get_precinct` does not raise — the
lazy scan finds the matching first record and never subscripts the bad
one. -/
theorem get_no_error_after_match :
    (∃ r ∈ ([[("precinct_id", Value.str "1")], []] : List Record), pidOf r = none) ∧
    get_precinct [[("precinct_id", Value.str "1")], []] (Value.str "1")
      = .ok (some [("precinct_id", Value.str "1")]) := by
  decide
